import Mathlib

/-!
Verification of the motif-finder core (`src/motif_finder.py`).

Sequences are embedded as `List Char`.  The NCBI fetch
(`fetch_sequences_from_ncbi`) is a network effect; the pipeline function
`find_motif_in_sequence_list` therefore takes the fetched
accession-to-sequence mapping as an explicit association-list parameter,
exactly the mapping that function consumes via `sequences.items()`.
Python float division in the density fields is embedded as exact rational
division on `ℚ`.
-/

/-- Occurrence test: Python `seq[i : i + len m] == m` (slices clamp at the end
of the string), i.e. `m` occurs in `s` at index `i`. -/
def matchesAt (s m : List Char) (i : Nat) : Bool :=
  decide ((s.drop i).take m.length = m)

/-- Embedding of Python `seq.find(motif, start)`: the least `i` with
`start ≤ i ≤ s.length` at which `m` occurs, `none` standing for the return
value `-1`. -/
def pyFind (s m : List Char) (start : Nat) : Option Nat :=
  (List.range' start (s.length + 1 - start)).find? (matchesAt s m)

/-- The `while True` scan of `find_motif_positions`, with an explicit bound
`fuel` on the number of iterations.  Each iteration moves the cursor strictly
forward and the cursor never exceeds `s.length + 1`, so `s.length + 1`
iterations always suffice; `scanLoop` below is the unbounded loop and
`scanLoop_eq_scanFuel` shows the bound is never hit. -/
def scanFuel (s m : List Char) : Nat → Nat → List Nat
  | _, 0 => []
  | start, fuel + 1 =>
    match pyFind s m start with
    | none => []
    | some idx => idx :: scanFuel s m (idx + 1) fuel

/-- Embedding of `find_motif_positions(seq, motif)`: scan from cursor 0,
recording each match and advancing the cursor by exactly 1. -/
def find_motif_positions (seq motif : List Char) : List Nat :=
  scanFuel seq motif 0 (seq.length + 1)

/-- Embedding of `str.maketrans("ATGC", "TACG")` as an association list. -/
def trans_table : List (Char × Char) :=
  [('A', 'T'), ('T', 'A'), ('G', 'C'), ('C', 'G')]

/-- Embedding of `seq.translate(table)` at one character: look the character
up in the table, characters without an entry are left unchanged. -/
def translate_char (c : Char) : Char :=
  (trans_table.lookup c).getD c

/-- Embedding of `reverse_complement(seq)`: translate every character through
`trans_table`, then reverse the whole string (`[::-1]`). -/
def reverse_complement (seq : List Char) : List Char :=
  (seq.map translate_char).reverse

/-- One row of the result table built by `find_motif_in_sequence_list`. -/
structure AccessionRecord where
  count_forward : Nat
  positions_forward : List Nat
  count_reverse_complement : Nat
  positions_reverse_complement : List Nat
  length : Nat
  density_forward : ℚ
  density_reverse_complement : ℚ
deriving DecidableEq

/-- Embedding of `find_motif_in_sequence_list(motif, accessions)`.  The
`sequences` parameter is the mapping returned by the NCBI fetch; every entry
with an empty (falsy) sequence is skipped, every other entry produces one
record, in iteration order. -/
def find_motif_in_sequence_list (motif : List Char)
    (sequences : List (String × List Char)) : List (String × AccessionRecord) :=
  sequences.filterMap fun p =>
    if p.2.isEmpty then
      none
    else
      some (p.1,
        { count_forward := (find_motif_positions p.2 motif).length
          positions_forward := find_motif_positions p.2 motif
          count_reverse_complement :=
            (find_motif_positions (reverse_complement p.2) motif).length
          positions_reverse_complement :=
            find_motif_positions (reverse_complement p.2) motif
          length := p.2.length
          density_forward :=
            ((find_motif_positions p.2 motif).length : ℚ) / (p.2.length : ℚ)
          density_reverse_complement :=
            ((find_motif_positions (reverse_complement p.2) motif).length : ℚ) /
              (p.2.length : ℚ) })

/-- A successful `pyFind` returns an index at or after the cursor, at most
`s.length`, at which the motif occurs. -/
theorem pyFind_some {s m : List Char} {start idx : Nat}
    (h : pyFind s m start = some idx) :
    start ≤ idx ∧ idx ≤ s.length ∧ (s.drop idx).take m.length = m := by
  have h1 := List.find?_some h
  have h2 := List.mem_of_find?_eq_some h
  rw [List.mem_range'_1] at h2
  refine ⟨h2.1, by omega, ?_⟩
  simpa [matchesAt] using h1

/-- A failed `pyFind` means the motif occurs nowhere in the searched range. -/
theorem pyFind_none {s m : List Char} {start : Nat}
    (h : pyFind s m start = none) :
    ∀ j, start ≤ j → j ≤ s.length → ¬(s.drop j).take m.length = m := by
  simp only [pyFind, List.find?_eq_none] at h
  intro j hj1 hj2 hm
  have := h j (List.mem_range'_1.mpr ⟨hj1, by omega⟩)
  simp [matchesAt, hm] at this

/-- On an ascending range, `find?` returns the first index satisfying the
predicate: every earlier index in the range fails it. -/
theorem find?_range'_min (p : Nat → Bool) :
    ∀ (n start a : Nat), (List.range' start n).find? p = some a →
      ∀ b, start ≤ b → b < a → p b = false := by
  intro n
  induction n with
  | zero =>
    intro start a h b _ _
    simp at h
  | succ n ih =>
    intro start a h b hb1 hb2
    rw [List.range'_succ] at h
    by_cases hp : p start = true
    · rw [List.find?_cons_of_pos _ hp] at h
      have : start = a := by simpa using h
      omega
    · rw [List.find?_cons_of_neg _ hp] at h
      rcases Nat.eq_or_lt_of_le hb1 with rfl | hlt
      · exact Bool.eq_false_iff.mpr hp
      · exact ih (start + 1) a h b hlt hb2

/-- `pyFind` is minimal: no occurrence lies strictly between the cursor and
the returned index. -/
theorem pyFind_min {s m : List Char} {start idx : Nat}
    (h : pyFind s m start = some idx) :
    ∀ j, start ≤ j → j < idx → ¬(s.drop j).take m.length = m := by
  intro j hj1 hj2 hm
  simp only [pyFind] at h
  have := find?_range'_min (matchesAt s m) _ start idx h j hj1 hj2
  simp [matchesAt, hm] at this

/-- Wherever the motif occurs at or after the cursor, `pyFind` succeeds and
returns an index no later than that occurrence. -/
theorem pyFind_exists {s m : List Char} {start i : Nat}
    (hle : start ≤ i) (hi : i ≤ s.length)
    (hm : (s.drop i).take m.length = m) :
    ∃ idx, pyFind s m start = some idx ∧ idx ≤ i := by
  cases hfind : pyFind s m start with
  | none => exact absurd hm (pyFind_none hfind i hle hi)
  | some idx =>
    refine ⟨idx, rfl, ?_⟩
    by_contra hlt
    push_neg at hlt
    exact pyFind_min hfind i hle hlt hm

/-- Soundness of the scan: every recorded position lies at or after the
cursor, is at most `s.length`, and is a real occurrence of the motif. -/
theorem mem_scanFuel {s m : List Char} :
    ∀ fuel start p, p ∈ scanFuel s m start fuel →
      start ≤ p ∧ p ≤ s.length ∧ (s.drop p).take m.length = m := by
  intro fuel
  induction fuel with
  | zero =>
    intro start p h
    simp [scanFuel] at h
  | succ n ih =>
    intro start p h
    simp only [scanFuel] at h
    cases hf : pyFind s m start with
    | none =>
      rw [hf] at h
      simp at h
    | some idx =>
      rw [hf] at h
      have hp := pyFind_some hf
      rcases List.mem_cons.mp h with rfl | h'
      · exact hp
      · have := ih (idx + 1) p h'
        exact ⟨by omega, this.2.1, this.2.2⟩

/-- The scan records positions in strictly increasing order. -/
theorem scanFuel_pairwise {s m : List Char} :
    ∀ fuel start, List.Pairwise (· < ·) (scanFuel s m start fuel) := by
  intro fuel
  induction fuel with
  | zero =>
    intro start
    simp [scanFuel]
  | succ n ih =>
    intro start
    simp only [scanFuel]
    cases hf : pyFind s m start with
    | none => simp
    | some idx =>
      refine List.pairwise_cons.mpr ⟨fun b hb => ?_, ih (idx + 1)⟩
      have := mem_scanFuel n (idx + 1) b hb
      omega

/-- Completeness of the scan: with enough fuel, every occurrence at or after
the cursor is recorded. -/
theorem scanFuel_complete {s m : List Char} :
    ∀ fuel start i, i - start < fuel → start ≤ i → i ≤ s.length →
      (s.drop i).take m.length = m → i ∈ scanFuel s m start fuel := by
  intro fuel
  induction fuel with
  | zero =>
    intro start i hfuel
    omega
  | succ n ih =>
    intro start i hfuel hle hi hm
    obtain ⟨idx, hfind, hidx⟩ := pyFind_exists hle hi hm
    have hp := pyFind_some hfind
    simp only [scanFuel, hfind]
    rcases Nat.eq_or_lt_of_le hidx with rfl | hlt
    · exact List.mem_cons_self _ _
    · exact List.mem_cons_of_mem _ (ih (idx + 1) i (by omega) (by omega) hi hm)

/-- The unbounded `while True` loop of `find_motif_positions`, exactly as in
the source: look for the next occurrence at or after the cursor, stop on
failure (`-1`), otherwise record it and advance the cursor by 1.  Termination
holds because the cursor strictly increases and `pyFind` fails once the
cursor passes `s.length`. -/
def scanLoop (s m : List Char) (start : Nat) : List Nat :=
  match h : pyFind s m start with
  | none => []
  | some idx => idx :: scanLoop s m (idx + 1)
termination_by s.length + 1 - start
decreasing_by
  have := pyFind_some h
  omega

/-- The fuel bound in `scanFuel` is never reached: any fuel of at least
`s.length + 1 - start` computes the unbounded loop. -/
theorem scanLoop_eq_scanFuel {s m : List Char} :
    ∀ fuel start, s.length + 1 - start ≤ fuel →
      scanLoop s m start = scanFuel s m start fuel := by
  intro fuel
  induction fuel with
  | zero =>
    intro start hsf
    have hnone : pyFind s m start = none := by
      simp only [pyFind]
      have h0 : s.length + 1 - start = 0 := by omega
      rw [h0]
      rfl
    rw [scanLoop, hnone]
    simp [scanFuel]
  | succ n ih =>
    intro start hsf
    rw [scanLoop]
    cases hf : pyFind s m start with
    | none => simp [scanFuel, hf]
    | some idx =>
      have hp := pyFind_some hf
      simp only [scanFuel, hf]
      exact congrArg (fun l => idx :: l) (ih (idx + 1) (by omega))

/-- The fueled definition agrees with the unbounded loop. -/
theorem find_motif_positions_eq_scanLoop (s m : List Char) :
    find_motif_positions s m = scanLoop s m 0 :=
  (scanLoop_eq_scanFuel (s.length + 1) 0 (by omega)).symm

/-- Length of a reverse complement equals the length of the input. -/
theorem reverse_complement_length (s : List Char) :
    (reverse_complement s).length = s.length := by
  simp [reverse_complement]

/-- Facts about a returned position: it is at most `s.length` and the motif
occurs there. -/
theorem find_motif_positions_mem {s m : List Char} {p : Nat}
    (h : p ∈ find_motif_positions s m) :
    p ≤ s.length ∧ (s.drop p).take m.length = m := by
  have := mem_scanFuel (s.length + 1) 0 p h
  exact ⟨this.2.1, this.2.2⟩

/-- Every returned position leaves room for the whole motif. -/
theorem find_motif_positions_bound {s m : List Char} {p : Nat}
    (h : p ∈ find_motif_positions s m) : p + m.length ≤ s.length := by
  obtain ⟨hle, htake⟩ := find_motif_positions_mem h
  have hlen := congrArg List.length htake
  rw [List.length_take, List.length_drop] at hlen
  have h2 : m.length ≤ s.length - p := by
    conv_lhs => rw [← hlen]
    exact Nat.min_le_right _ _
  omega

/-- Substitution map written from the spec words (§4.2 StrandComplementer):
A and T swap, G and C swap, any other character is unchanged. -/
def spec_substitution (c : Char) : Char :=
  if c = 'A' then 'T'
  else if c = 'T' then 'A'
  else if c = 'G' then 'C'
  else if c = 'C' then 'G'
  else c

/-- The table-driven character translation of the code agrees with the
spec-side substitution at every character. -/
theorem translate_char_eq_spec (c : Char) :
    translate_char c = spec_substitution c := by
  by_cases h1 : c = 'A'
  · subst h1; decide
  by_cases h2 : c = 'T'
  · subst h2; decide
  by_cases h3 : c = 'G'
  · subst h3; decide
  by_cases h4 : c = 'C'
  · subst h4; decide
  have e1 : (c == 'A') = false := beq_eq_false_iff_ne.mpr h1
  have e2 : (c == 'T') = false := beq_eq_false_iff_ne.mpr h2
  have e3 : (c == 'G') = false := beq_eq_false_iff_ne.mpr h3
  have e4 : (c == 'C') = false := beq_eq_false_iff_ne.mpr h4
  simp [translate_char, trans_table, List.lookup, spec_substitution,
    e1, e2, e3, e4, h1, h2, h3, h4]

/-- In a list of pairs with pairwise-distinct keys, a key determines its
value. -/
theorem keys_nodup_val_eq {α : Type _} {β : Type _} {l : List (α × β)}
    (h : (l.map Prod.fst).Nodup) {a : α} {b c : β}
    (hb : (a, b) ∈ l) (hc : (a, c) ∈ l) : b = c := by
  induction l with
  | nil => simp at hb
  | cons x xs ih =>
    simp only [List.map_cons, List.nodup_cons] at h
    rcases List.mem_cons.mp hb with hb' | hb' <;>
      rcases List.mem_cons.mp hc with hc' | hc'
    · subst hb'
      have h2 := congrArg Prod.snd hc'
      exact h2.symm
    · exfalso
      apply h.1
      subst hb'
      exact List.mem_map.mpr ⟨(a, c), hc', rfl⟩
    · exfalso
      apply h.1
      subst hc'
      exact List.mem_map.mpr ⟨(a, b), hb', rfl⟩
    · exact ih h.2 hb' hc'

/-- Concrete run of the pipeline on the spec scenario: motif GAA against the
fetched mapping X1 to GAATTCGAA, X2 to the empty sequence. -/
theorem gaa_example_table :
    find_motif_in_sequence_list ("GAA".toList)
        [("X1", "GAATTCGAA".toList), ("X2", "".toList)] =
      [("X1",
        { count_forward := 2, positions_forward := [0, 6],
          count_reverse_complement := 1, positions_reverse_complement := [3],
          length := 9, density_forward := 2 / 9,
          density_reverse_complement := 1 / 9 })] := by
  have h1 : find_motif_positions ['G','A','A','T','T','C','G','A','A']
      ['G','A','A'] = [0, 6] := by decide
  have h2 : reverse_complement ['G','A','A','T','T','C','G','A','A'] =
      ['T','T','C','G','A','A','T','T','C'] := by decide
  have h3 : find_motif_positions ['T','T','C','G','A','A','T','T','C']
      ['G','A','A'] = [3] := by decide
  norm_num [find_motif_in_sequence_list, List.filterMap_cons, h1, h2, h3,
    AccessionRecord.mk.injEq]
  rfl

/-- C1: for every sequence `S` and motif `M`, `find_motif_positions S M`
returns zero-based start positions in strictly increasing order, and every
returned position `p` satisfies the Python slice equation
`S[p : p + len M] == M`. -/
theorem claim_C1 (S M : List Char) :
    List.Pairwise (· < ·) (find_motif_positions S M) ∧
      ∀ p ∈ find_motif_positions S M, (S.drop p).take M.length = M :=
  ⟨scanFuel_pairwise (S.length + 1) 0,
   fun _ hp => (find_motif_positions_mem hp).2⟩

/-- C2: the scan advances the cursor by exactly 1 after each match, so for
every sequence and non-empty motif no occurrence, overlapping ones included,
is omitted; in particular scanning AAA for AA yields both positions 0
and 1. -/
theorem claim_C2 :
    (∀ (S M : List Char), M ≠ [] → ∀ i : Nat,
        (S.drop i).take M.length = M → i ∈ find_motif_positions S M) ∧
      find_motif_positions ("AAA".toList) ("AA".toList) = [0, 1] := by
  constructor
  · intro S M hM i hm
    have hMl : 0 < M.length := List.length_pos.mpr hM
    have hlen := congrArg List.length hm
    rw [List.length_take, List.length_drop] at hlen
    have h2 : M.length ≤ S.length - i := by
      conv_lhs => rw [← hlen]
      exact Nat.min_le_right _ _
    exact scanFuel_complete (S.length + 1) 0 i (by omega) (by omega) (by omega) hm
  · decide

/-- C2 witness: the overlapping occurrence of AA at index 1 of AAA is
reported. -/
theorem claim_C2_witness :
    1 ∈ find_motif_positions ("AAA".toList) ("AA".toList) :=
  claim_C2.1 ("AAA".toList) ("AA".toList) (by decide) 1 (by decide)

/-- C3 counterexample: on the reverse complement TTCGAATTC of GAATTCGAA the
motif GAA is found at position 3, not at position 4 as the claim states. -/
theorem claim_C3_counterexample :
    find_motif_positions (reverse_complement ("GAATTCGAA".toList))
      ("GAA".toList) ≠ [4] := by decide

/-- C3 (amended): in the end-to-end scenario with motif GAA and a source
yielding X1 = GAATTCGAA and X2 = empty, the table has exactly one row, for
X1, with count_forward 2, positions_forward [0, 6], length 9, density_forward
2/9, and on the reverse complement TTCGAATTC the motif is found at
position [3] (not [4]) giving count_reverse_complement 1, while X2 is absent
from the table. -/
theorem claim_C3 :
    find_motif_in_sequence_list ("GAA".toList)
        [("X1", "GAATTCGAA".toList), ("X2", "".toList)] =
      [("X1",
        { count_forward := 2, positions_forward := [0, 6],
          count_reverse_complement := 1, positions_reverse_complement := [3],
          length := 9, density_forward := 2 / 9,
          density_reverse_complement := 1 / 9 })] ∧
      reverse_complement ("GAATTCGAA".toList) = "TTCGAATTC".toList :=
  ⟨gaa_example_table, by decide⟩

/-- C4: `reverse_complement` is an involution on strings over the DNA
alphabet A, T, G, C. -/
theorem claim_C4 (S : List Char)
    (h : ∀ c ∈ S, c = 'A' ∨ c = 'T' ∨ c = 'G' ∨ c = 'C') :
    reverse_complement (reverse_complement S) = S := by
  simp only [reverse_complement, List.map_reverse, List.reverse_reverse,
    List.map_map]
  have hcc : ∀ c ∈ S, (translate_char ∘ translate_char) c = id c := by
    intro c hc
    rcases h c hc with rfl | rfl | rfl | rfl <;> decide
  rw [List.map_congr_left hcc, List.map_id]

/-- C4 witness: the involution at the concrete DNA string ATGC. -/
theorem claim_C4_witness :
    reverse_complement (reverse_complement ("ATGC".toList)) = "ATGC".toList :=
  claim_C4 ("ATGC".toList) (by decide)

/-- C5: `reverse_complement` is the position-wise substitution (A with T,
G with C, everything else unchanged) followed by a full reversal, it
preserves length, and it sends ATGC to GCAT. -/
theorem claim_C5 :
    (∀ S : List Char,
        reverse_complement S = (S.map spec_substitution).reverse ∧
          (reverse_complement S).length = S.length) ∧
      reverse_complement ("ATGC".toList) = "GCAT".toList := by
  refine ⟨fun S => ⟨?_, reverse_complement_length S⟩, by decide⟩
  simp only [reverse_complement]
  exact congrArg List.reverse
    (List.map_congr_left fun c _ => translate_char_eq_spec c)

/-- C6: every emitted row has positive sequence length and its densities are
exactly count divided by that positive length, and (keys of the fetched
mapping being distinct, as for a Python dict) an accession whose sequence is
the empty string never appears as a key of the output table. -/
theorem claim_C6 (motif : List Char) (seqs : List (String × List Char)) :
    (∀ row ∈ find_motif_in_sequence_list motif seqs,
        0 < row.2.length ∧
          row.2.density_forward =
            (row.2.count_forward : ℚ) / (row.2.length : ℚ) ∧
          row.2.density_reverse_complement =
            (row.2.count_reverse_complement : ℚ) / (row.2.length : ℚ)) ∧
      ((seqs.map Prod.fst).Nodup →
        ∀ acc : String, (acc, ([] : List Char)) ∈ seqs →
          acc ∉ (find_motif_in_sequence_list motif seqs).map Prod.fst) := by
  constructor
  · intro row hrow
    obtain ⟨p, hpmem, hp⟩ := List.mem_filterMap.mp hrow
    by_cases he : p.2.isEmpty
    · simp [he] at hp
    · rw [if_neg he] at hp
      have hp' := Option.some.inj hp
      have hne : p.2 ≠ [] := by
        simpa [List.isEmpty_iff] using he
      rw [← hp']
      exact ⟨List.length_pos.mpr hne, rfl, rfl⟩
  · intro hnodup acc hacc hmem
    obtain ⟨row, hrow, hfst⟩ := List.mem_map.mp hmem
    obtain ⟨p, hpmem, hp⟩ := List.mem_filterMap.mp hrow
    by_cases he : p.2.isEmpty
    · simp [he] at hp
    · rw [if_neg he] at hp
      have hne : p.2 ≠ [] := by
        simpa [List.isEmpty_iff] using he
      have hp' := Option.some.inj hp
      have hkey : p.1 = acc := by
        rw [← hp'] at hfst
        exact hfst
      have hpmem' : (acc, p.2) ∈ seqs := by
        rw [← hkey]
        exact hpmem
      exact hne (keys_nodup_val_eq hnodup hpmem' hacc)

/-- C6 witness: in the GAA scenario the empty accession X2 is not a key of
the table. -/
theorem claim_C6_witness :
    "X2" ∉ (find_motif_in_sequence_list ("GAA".toList)
        [("X1", "GAATTCGAA".toList), ("X2", ([] : List Char))]).map Prod.fst :=
  (claim_C6 ("GAA".toList)
      [("X1", "GAATTCGAA".toList), ("X2", ([] : List Char))]).2
    (by decide) "X2" (by decide)

/-- C7: in every emitted record, each stored count equals the length of the
corresponding positions list, each position on either strand leaves room for
the whole motif inside that strand's sequence (both strands have the row's
length), the length is positive, and the row's accession comes from a fetched
entry with a non-empty sequence. -/
theorem claim_C7 (motif : List Char) (seqs : List (String × List Char))
    (acc : String) (r : AccessionRecord)
    (h : (acc, r) ∈ find_motif_in_sequence_list motif seqs) :
    r.count_forward = r.positions_forward.length ∧
      r.count_reverse_complement = r.positions_reverse_complement.length ∧
      (∀ p ∈ r.positions_forward, p + motif.length ≤ r.length) ∧
      (∀ p ∈ r.positions_reverse_complement, p + motif.length ≤ r.length) ∧
      0 < r.length ∧
      ∃ seq : List Char, (acc, seq) ∈ seqs ∧ seq ≠ [] := by
  obtain ⟨p, hpmem, hp⟩ := List.mem_filterMap.mp h
  by_cases he : p.2.isEmpty
  · simp [he] at hp
  · rw [if_neg he] at hp
    have hp' := Option.some.inj hp
    have hne : p.2 ≠ [] := by
      simpa [List.isEmpty_iff] using he
    injection hp' with hkey hrec
    subst hrec
    refine ⟨rfl, rfl, ?_, ?_, List.length_pos.mpr hne, ?_⟩
    · intro q hq
      exact find_motif_positions_bound hq
    · intro q hq
      have := find_motif_positions_bound hq
      rwa [reverse_complement_length] at this
    · refine ⟨p.2, ?_, hne⟩
      rw [← hkey]
      exact hpmem

/-- C7 witness: the invariants applied to the one row of the GAA scenario. -/
theorem claim_C7_witness :
    0 < ({ count_forward := 2, positions_forward := [0, 6],
           count_reverse_complement := 1, positions_reverse_complement := [3],
           length := 9, density_forward := 2 / 9,
           density_reverse_complement := 1 / 9 } : AccessionRecord).length :=
  (claim_C7 ("GAA".toList) [("X1", "GAATTCGAA".toList), ("X2", "".toList)]
      "X1"
      { count_forward := 2, positions_forward := [0, 6],
        count_reverse_complement := 1, positions_reverse_complement := [3],
        length := 9, density_forward := 2 / 9,
        density_reverse_complement := 1 / 9 }
      (by rw [gaa_example_table]; exact List.mem_singleton.mpr rfl)).2.2.2.2.1

/-- C8 counterexample: for the empty motif the scan does not return the empty
list; already on the one-character sequence A it returns [0, 1]. -/
theorem claim_C8_counterexample :
    find_motif_positions ("A".toList) ("".toList) ≠ [] := by decide

/-- With the empty motif, `pyFind` succeeds at every cursor up to `s.length`,
so the scan enumerates every index of the remaining range. -/
theorem scanFuel_empty_motif {s : List Char} :
    ∀ n start, start + n = s.length + 1 →
      scanFuel s [] start n = List.range' start n := by
  intro n
  induction n with
  | zero =>
    intro start _
    rfl
  | succ n ih =>
    intro start h
    have hfind : pyFind s [] start = some start := by
      simp only [pyFind]
      have he : s.length + 1 - start = n + 1 := by omega
      rw [he, List.range'_succ]
      exact List.find?_cons_of_pos _ (by simp [matchesAt])
    simp only [scanFuel, hfind]
    rw [List.range'_succ]
    exact congrArg (fun l => start :: l) (ih (start + 1) (by omega))

/-- C8 (amended): for every sequence `S`, `find_motif_positions S ""` returns
one position for every index from 0 to `S.length` inclusive (Python
`seq.find("", start)` returns `start` for every `start ≤ len(seq)`), never
the empty list. -/
theorem claim_C8 (S : List Char) :
    find_motif_positions S [] = List.range (S.length + 1) := by
  rw [List.range_eq_range']
  exact scanFuel_empty_motif (S.length + 1) 0 (by omega)

/-- C9: the fueled scan equals the unbounded `while True` loop (which Lean
accepts as terminating for every sequence and motif), the loop stops exactly
when no further occurrence exists at or after the cursor, and a motif longer
than the sequence yields zero matches. -/
theorem claim_C9 (s m : List Char) :
    find_motif_positions s m = scanLoop s m 0 ∧
      (∀ start, pyFind s m start = none → scanLoop s m start = []) ∧
      (s.length < m.length → find_motif_positions s m = []) := by
  refine ⟨find_motif_positions_eq_scanLoop s m, fun start hnone => ?_,
    fun hlen => ?_⟩
  · rw [scanLoop, hnone]
  · rw [List.eq_nil_iff_forall_not_mem]
    intro p hp
    have := find_motif_positions_bound hp
    omega

/-- C9 witness: the loop stops immediately on the spec's no-match example
ACGT versus TT, and a motif longer than the sequence yields no matches. -/
theorem claim_C9_witness :
    scanLoop ("ACGT".toList) ("TT".toList) 0 = [] ∧
      find_motif_positions ("AC".toList) ("GGG".toList) = [] :=
  ⟨(claim_C9 ("ACGT".toList) ("TT".toList)).2.1 0 (by decide),
   (claim_C9 ("AC".toList) ("GGG".toList)).2.2 (by decide)⟩

/-- C10: matching is case-sensitive exact comparison: a reported position
matches the motif character by character, and a lowercase motif never
matches an uppercase sequence nor vice versa. -/
theorem claim_C10 :
    (∀ (S M : List Char) (p : Nat), p ∈ find_motif_positions S M →
        ∀ j, j < M.length → S[p + j]? = M[j]?) ∧
      find_motif_positions ("GAATTC".toList) ("gaa".toList) = [] ∧
      find_motif_positions ("gaattc".toList) ("GAA".toList) = [] := by
  refine ⟨fun S M p hp j hj => ?_, by decide, by decide⟩
  have htake := (find_motif_positions_mem hp).2
  have hj' := congrArg (fun l => l[j]?) htake
  simp only [List.getElem?_take, List.getElem?_drop] at hj'
  rw [if_pos hj] at hj'
  exact hj'

/-- C10 witness: the reported occurrence of GAA at position 6 of GAATTCGAA
matches character by character, here at offset 2. -/
theorem claim_C10_witness :
    ("GAATTCGAA".toList)[6 + 2]? = ("GAA".toList)[2]? :=
  claim_C10.1 ("GAATTCGAA".toList) ("GAA".toList) 6 (by decide) 2 (by decide)

/-- C1 witness: the reported occurrence of GAA at position 0 of GAATTCGAA
really is the slice GAA. -/
theorem claim_C1_witness :
    (("GAATTCGAA".toList).drop 0).take (("GAA".toList).length) =
      "GAA".toList :=
  (claim_C1 ("GAATTCGAA".toList) ("GAA".toList)).2 0 (by decide)
